import Mathlib

/- Verification of the expense-tracker ingestion and categorization core.

   This file shallowly embeds the pure logic of the Python modules
   `core/database.py`, `core/dedup.py`, `core/categorizer.py`,
   `core/parser.py` and `core/email_parser.py`:

   * SQLite tables are modelled as Lean lists of records; single-row
     updates keyed by the (unique) primary key are modelled positionally.
   * Python dicts are modelled as association lists where insertion
     overwrites the first binding of the key, else appends at the end.
   * Python strings are modelled through their character lists; `upper`,
     `lower`, `strip`, slicing and the `in` substring test are implemented
     structurally so that concrete instances evaluate by `decide`.
   * `float` amounts are modelled as rationals; fallible parsing
     (`float(...)`, `datetime.strptime`) and the regex engine are
     abstracted as function parameters `String → Option _` / `String → Bool`,
     since the claims quantify over their results.
   * The Ollama HTTP service is modelled as a record `LLM` holding a
     reachability flag and an oracle from a transaction batch to the
     parsed JSON mapping (the composition of `_call_ollama` and
     `_parse_json_response`); raising `RuntimeError` is modelled by
     `Except.error`. -/

/-! ### String primitives (Python `upper` / `lower` / `strip` / slicing / `in`) -/

/-- Python `s.upper()` (ASCII scope, matching SQLite `UPPER`). -/
def upperStr (s : String) : String := String.mk (s.data.map Char.toUpper)

/-- Python `s.lower()` (ASCII scope). -/
def lowerStr (s : String) : String := String.mk (s.data.map Char.toLower)

/-- Python `s.strip()`: remove leading and trailing whitespace. -/
def trimStr (s : String) : String :=
  String.mk (((s.data.dropWhile Char.isWhitespace).reverse.dropWhile Char.isWhitespace).reverse)

/-- Python `s[:n]` on character positions. -/
def takeStr (n : Nat) (s : String) : String := String.mk (s.data.take n)

/-- Python `len(s)`. -/
def strLen (s : String) : Nat := s.data.length

/-- Helper for the substring test: does `needle` occur in some suffix? -/
def strContainsAux (needle : List Char) : List Char → Bool
  | [] => needle.isEmpty
  | c :: rest => needle.isPrefixOf (c :: rest) || strContainsAux needle rest

/-- Python `needle in hay` on strings. -/
def strContains (hay needle : String) : Bool := strContainsAux needle.data hay.data

/-- Python `s.startswith("-")`. -/
def startsWithDash (s : String) : Bool :=
  match s.data with
  | [] => false
  | c :: _ => c = '-'

/-- Python `s.replace(",", "")`. -/
def removeCommas (s : String) : String := String.mk (s.data.filter (fun c => c ≠ ','))

/-! ### Data model

`Rule` is a row of the `category_rules` table (`core/database.py`); the
`id`/`created_at` columns are not observable by the embedded logic: row
identity is positional (ids are unique, `fetchone` returns the first row
in rowid = list order, and `UPDATE ... WHERE id = ?` touches exactly that
row). `Txn` is the canonical transaction dict; fields missing from a
Python dict are the defaults below. `DbTxn` is a row of the
`transactions` table. -/

structure Rule where
  keyword : String
  category : String
  source : String := "user"
  match_count : Nat := 1
deriving DecidableEq, Repr

structure Txn where
  id : Int := 0
  date : String := ""
  description : String := ""
  amount : ℚ := 0
  type : String := ""
  source : String := ""
  email_body : String := ""
deriving DecidableEq, Repr

structure DbTxn where
  id : Int := 0
  date : String := ""
  description : String := ""
  amount : ℚ := 0
  type : String := ""
  source : String := ""
  category : Option String := none
  is_cc_payment : Bool := false
  is_excluded : Bool := false
deriving DecidableEq, Repr

/-! ### Python dicts `int -> str` as association lists -/

/-- A Python dict mapping transaction id to category. -/
abbrev Dict := List (Int × String)

/-- Dict lookup (`d[k]` / `k in d`). -/
def dlookup (k : Int) : Dict → Option String
  | [] => none
  | (k', v) :: rest => if k' = k then some v else dlookup k rest

/-- Dict assignment `d[k] = v`: overwrite the binding of `k` in place if it
exists (our dicts never hold a key twice), else append at the end —
Python dict insertion-order semantics. -/
def dinsert : Dict → Int → String → Dict
  | [], k, v => [(k, v)]
  | (k', v') :: rest, k, v =>
    if k' = k then (k, v) :: rest else (k', v') :: dinsert rest k v

/-! ### `core/database.py`: learned category rules -/

/-- The `ORDER BY match_count DESC, keyword` order of `get_all_rules`
(SQLite BINARY collation on `keyword` agrees with codepoint order). -/
def ruleLE (a b : Rule) : Prop :=
  b.match_count < a.match_count ∨ (a.match_count = b.match_count ∧ a.keyword ≤ b.keyword)

instance : DecidableRel ruleLE := fun a b => by unfold ruleLE; infer_instance

/-- `get_all_rules()`: all rules ordered by `match_count DESC, keyword`. -/
def get_all_rules (rules : List Rule) : List Rule := List.insertionSort ruleLE rules

/-- Body of `upsert_category_rule` after the guard: `fetchone` on
`UPPER(keyword) = UPPER(?)` finds the first matching row; same category
bumps `match_count`, a different category overwrites category/source and
resets `match_count` to 1; no match inserts a fresh row. -/
def upsertAux (keyword category source : String) : List Rule → List Rule
  | [] => [{ keyword := keyword, category := category, source := source, match_count := 1 }]
  | r :: rest =>
    if upperStr r.keyword = upperStr keyword then
      (if r.category = category then
        { r with match_count := r.match_count + 1 } :: rest
      else
        { r with category := category, source := source, match_count := 1 } :: rest)
    else r :: upsertAux keyword category source rest

/-- `upsert_category_rule(keyword, category, source)`. -/
def upsert_category_rule (rules : List Rule) (keyword category source : String) : List Rule :=
  let kw := trimStr keyword
  if strLen kw < 2 then rules
  else upsertAux kw category source rules

/-- The inner loop of `apply_rules_to_transactions`: the first rule (in
`get_all_rules` order) whose keyword is a case-insensitive substring of
the description (`rule["keyword"].upper() in desc_upper`). -/
def firstRuleMatch (rules : List Rule) (desc : String) : Option Rule :=
  rules.find? (fun r => strContains (upperStr desc) (upperStr r.keyword))

/-- The transaction loop of `apply_rules_to_transactions`, building the
`results` dict. -/
def applyRulesAux (rules : List Rule) : List Txn → Dict → Dict
  | [], results => results
  | t :: rest, results =>
    match firstRuleMatch rules t.description with
    | some r => applyRulesAux rules rest (dinsert results t.id r.category)
    | none => applyRulesAux rules rest results

/-- `apply_rules_to_transactions(transactions)` over the rule table. -/
def apply_rules_to_transactions (db : List Rule) (txns : List Txn) : Dict :=
  let rules := get_all_rules db
  if rules.isEmpty then []
  else applyRulesAux rules txns []

/-- `flag_cc_payments_visible(txn_ids)`: set both flags and the reserved
category on every row whose id is in the list (`WHERE id IN (...)`). -/
def flag_cc_payments_visible (table : List DbTxn) (txn_ids : List Int) : List DbTxn :=
  if txn_ids.isEmpty then table
  else table.map (fun t =>
    if t.id ∈ txn_ids then
      { t with is_cc_payment := true, is_excluded := true,
               category := some ("Credit Card Payment") }
    else t)

/-! ### `core/database.py`: within-file duplicate detection -/

/-- The `f"{amount:.2f}"` component of the duplicate key: the amount
rounded to cents. `(200 q.num).fdiv q.den = ⌊200 q⌋`, so this equals
`⌊100 q + 1/2⌋`, modelling rounding to two decimals. -/
def cents (q : ℚ) : ℤ := ((200 * q.num).fdiv (q.den : ℤ) + 1).fdiv 2

/-- The grouping key of `find_within_file_duplicates`:
`f"{date}|{amount:.2f}|{type}|{description[:50].upper()}"`. -/
def dupKey (t : Txn) : String × ℤ × String × String :=
  (t.date, cents t.amount, t.type, upperStr (takeStr 50 t.description))

/-- Lookup in the `seen` dict of first-seen indices. -/
def seenFind (k : String × ℤ × String × String) : List ((String × ℤ × String × String) × Nat) → Option Nat
  | [] => none
  | (k', v) :: rest => if k' = k then some v else seenFind k rest

/-- The loop of `find_within_file_duplicates`: `i` is the absolute index
of the head of the remaining list, `seen` maps keys to first-seen index. -/
def fwdAux : List Txn → Nat → List ((String × ℤ × String × String) × Nat) → List (Nat × Nat)
  | [], _, _ => []
  | t :: rest, i, seen =>
    match seenFind (dupKey t) seen with
    | some j => (j, i) :: fwdAux rest (i + 1) seen
    | none => fwdAux rest (i + 1) ((dupKey t, i) :: seen)

/-- `find_within_file_duplicates(txns)`. -/
def find_within_file_duplicates (txns : List Txn) : List (Nat × Nat) :=
  fwdAux txns 0 []

/-- Index of the first transaction in the list carrying duplicate key `k`
(specification device for the theorems about within-file duplicates). -/
def firstIdx (k : String × ℤ × String × String) : List Txn → Option Nat
  | [] => none
  | t :: rest => if dupKey t = k then some 0 else (firstIdx k rest).map (· + 1)

/-! ### `core/dedup.py`: credit-card payment detection -/

/-- `CC_PAYMENT_KEYWORDS` from `core/dedup.py`. -/
def CC_PAYMENT_KEYWORDS : List String :=
  ["credit card", "cc payment", "card payment", "credit card payment",
   "cc bill", "card bill", "credit card bill", "cred", "visa bill",
   "mastercard bill", "amex bill", "rupay bill", "hdfc card", "icici card",
   "sbi card", "axis card", "kotak card", "citi card", "rbl card",
   "au card", "indusind card", "yes card", "bob card", "onecard",
   "slice", "simpl", "lazypay", "uni card", "fi card", "jupiter card",
   "navi card"]

/-- `_matches_cc_keywords(description)`. -/
def matches_cc_keywords (description : String) : Bool :=
  CC_PAYMENT_KEYWORDS.any (fun kw => strContains description kw)

/-- `detect_cc_payments(transactions)`: ids of bank-source debits whose
lowercased description matches a CC-payment keyword. -/
def detect_cc_payments (txns : List Txn) : List Int :=
  (txns.filter (fun t =>
    decide (t.source = "bank") && decide (t.type = "debit")
      && matches_cc_keywords (lowerStr t.description))).map (fun t => t.id)

/-! ### `core/categorizer.py`: the layered categorization engine -/

/-- `BATCH_SIZE` from `core/categorizer.py`. -/
def BATCH_SIZE : Nat := 15

/-- The Ollama text-generation service: `running` is the result of
`_check_ollama_running()`, and `respond batch` is the parsed JSON mapping
obtained from `_parse_json_response(_call_ollama(prompt))` for the prompt
built from `batch` (`none` models both a failed call and an unparseable
response; keys are the `int(idx_str)` conversions of the JSON keys). -/
structure LLM where
  running : Bool
  respond : List Txn → Option (List (Int × String))

/-- The mapping loop of `categorize_transactions` (lines 264-273): each
entry with an in-range index is recorded under `ids[idx]`, coerced to
`"Other"` when the category is not in the allowed list. -/
def processMapping (acc : Dict) (ids : List Int) (blen : Nat) (categories : List String) :
    List (Int × String) → Dict
  | [] => acc
  | (idx, category) :: rest =>
    let acc' :=
      if 0 ≤ idx ∧ idx < (blen : Int) then
        (if category ∈ categories then dinsert acc (ids.getD idx.toNat 0) category
         else dinsert acc (ids.getD idx.toNat 0) ("Other"))
      else acc
    processMapping acc' ids blen categories rest

/-- Layer 2 of `categorize_transactions`: the batching loop over the
transactions left unresolved by the rule layer. -/
def modelLayer (svc : LLM) (categories : List String) : List Txn → Dict → Dict
  | [], acc => acc
  | t :: rest, acc =>
    let batch := (t :: rest).take BATCH_SIZE
    let ids := batch.map (fun u => u.id)
    let acc' :=
      match svc.respond batch with
      | some mapping => processMapping acc ids batch.length categories mapping
      | none => acc
    modelLayer svc categories ((t :: rest).drop BATCH_SIZE) acc'
termination_by l _ => l.length
decreasing_by simp [List.length_drop, BATCH_SIZE]; omega

/-- `categorize_transactions(transactions, categories)`: rule layer, then
the reachability check (`raise RuntimeError` modelled as `Except.error`),
then the model layer. -/
def categorize_transactions (db : List Rule) (svc : LLM) (txns : List Txn)
    (categories : List String) : Except String Dict :=
  if txns.isEmpty then .ok []
  else
    let all_results := apply_rules_to_transactions db txns
    let remaining := txns.filter (fun t => (dlookup t.id all_results).isNone)
    if remaining.isEmpty then .ok all_results
    else if !svc.running then .error ("Ollama is not running")
    else .ok (modelLayer svc categories remaining all_results)

/-- `categorize_single(description, categories)`: single-element batch;
`mapping.get("0")` is `dlookup`-style lookup of key 0, an absent key
gives Python `None`, which is not in `categories`, hence `"Other"`. -/
def categorize_single (svc : LLM) (description : String) (categories : List String) :
    Option String :=
  if !svc.running then none
  else
    match svc.respond [{ id := -1, description := description }] with
    | none => none
    | some mapping =>
      match dlookup 0 mapping with
      | some category => some (if category ∈ categories then category else "Other")
      | none => some ("Other")

/-! ### `core/parser.py`: amount cleaning and the extractor row pipelines

The pandas / pdfplumber / JSON front-ends are abstracted away: a row (or
vision item, or regex-matched PDF line) arrives as its already-stringified
cells, with `none` for a missing / NaN cell, and the `float(...)` /
`_parse_date(...)` primitives arrive as oracles `pfloat` / `pdate`; the
conversion logic downstream of those calls is embedded verbatim. -/

/-- Python `abs` on the rational model of floats. -/
def ratAbs (q : ℚ) : ℚ := if q < 0 then -q else q

/-- `_clean_amount(value)`: strip, remove currency symbols / commas /
whitespace, `(` becomes `-` and `)` is dropped, then `abs(float(s))`. -/
def clean_amount (pfloat : String → Option ℚ) : Option String → Option ℚ
  | none => none
  | some v =>
    let s := trimStr v
    let s := String.mk (s.data.filter (fun c => !(c = '₹' || c = '$' || c = ',' || c.isWhitespace)))
    let s := String.mk ((s.data.map (fun c => if c = '(' then '-' else c)).filter (fun c => c ≠ ')'))
    if s = "" ∨ s = "-" then none
    else (pfloat s).map ratAbs

/-- A spreadsheet / PDF-table row, reduced to the cells selected by the
detected column mapping; `none` is a missing or NaN cell. -/
structure Row where
  dateCell : Option String := none
  descCell : Option String := none
  debitCell : Option String := none
  creditCell : Option String := none
  amountCell : Option String := none
deriving DecidableEq, Repr

/-- `str(cell)` for a cell that may be NaN. -/
def cellStr : Option String → String
  | some s => s
  | none => "nan"

/-- Keep a cleaned amount only when it is truthy and positive
(`if amt and amt > 0`). -/
def posOnly (o : Option ℚ) : Option ℚ :=
  match o with
  | some a => if 0 < a then some a else none
  | none => none

/-- CSV description handling: strip, then empty / `"nan"` become the
placeholder. -/
def csvDescOf (hasDesc : Bool) (cell : Option String) : String :=
  let d := if hasDesc then trimStr (cellStr cell) else ""
  if d = "" ∨ d = "nan" then "No description" else d

/-- CSV single-amount-column type heuristic:
`"credit" if raw.strip().startswith("-") or "cr" in raw.lower() else "debit"`. -/
def csvSingleType (cell : Option String) : String :=
  let raw := cellStr cell
  if startsWithDash (trimStr raw) || strContains (lowerStr raw) ("cr") then "credit" else "debit"

/-- Canonical record produced by the extractors. -/
structure PTxn where
  date : String
  description : String
  amount : ℚ
  type : String
  email_body : String := ""
deriving DecidableEq, Repr

/-- The per-row body of `_dataframe_to_transactions(df, mapping)`: the
`has*` flags say which roles the column mapping detected; the loop
appends at most one transaction per row. -/
def csvRowToTxn (pdate : String → Option String) (pfloat : String → Option ℚ)
    (hasDate hasDesc hasDebit hasCredit hasAmount : Bool) (row : Row) : Option PTxn :=
  match (if hasDate then row.dateCell else none).bind pdate with
  | none => none
  | some d =>
    let desc := csvDescOf hasDesc row.descCell
    if hasDebit && hasCredit then
      match posOnly (clean_amount pfloat row.debitCell) with
      | some a => some ⟨d, desc, a, "debit", ""⟩
      | none =>
        match posOnly (clean_amount pfloat row.creditCell) with
        | some a => some ⟨d, desc, a, "credit", ""⟩
        | none => none
    else if hasAmount then
      match clean_amount pfloat row.amountCell with
      | some a => if 0 < a then some ⟨d, desc, a, csvSingleType row.amountCell, ""⟩ else none
      | none => none
    else none

/-- `_dataframe_to_transactions(df, mapping)`. -/
def dataframe_to_transactions (pdate : String → Option String) (pfloat : String → Option ℚ)
    (hasDate hasDesc hasDebit hasCredit hasAmount : Bool) (rows : List Row) : List PTxn :=
  rows.filterMap (csvRowToTxn pdate pfloat hasDate hasDesc hasDebit hasCredit hasAmount)

/-- PDF-table description handling (`str(...)` then the `"None"` / `"nan"`
placeholders; a missing cell stays "No description"). -/
def pdfDescOf (cell : Option String) : String :=
  match cell with
  | some s =>
    let d := trimStr s
    if d = "None" ∨ d = "nan" then "No description" else d
  | none => "No description"

/-- PDF-table single-amount-column type heuristic:
`"credit" if "-" in raw or "cr" in raw.lower() else "debit"`. -/
def pdfSingleType (cell : Option String) : String :=
  let raw := cell.getD ""
  if strContains raw ("-") || strContains (lowerStr raw) ("cr") then "credit" else "debit"

/-- The per-row body of the data-row loop of `_parse_pdf_tables`
(`hasDC`: both debit and credit columns found; else `hasAmount`: an
amount column found; the table already has a date column). -/
def pdfTableRowToTxn (pdate : String → Option String) (pfloat : String → Option ℚ)
    (hasDC hasAmount : Bool) (row : Row) : Option PTxn :=
  match pdate (row.dateCell.getD "") with
  | none => none
  | some d =>
    let desc := pdfDescOf row.descCell
    if hasDC then
      match posOnly (clean_amount pfloat row.debitCell) with
      | some a => some ⟨d, desc, a, "debit", ""⟩
      | none =>
        match posOnly (clean_amount pfloat row.creditCell) with
        | some a => some ⟨d, desc, a, "credit", ""⟩
        | none => none
    else if hasAmount then
      match posOnly (clean_amount pfloat row.amountCell) with
      | some a => some ⟨d, desc, a, pdfSingleType row.amountCell, ""⟩
      | none => none
    else none

/-- The data-row loop of `_parse_pdf_tables` for one table whose header
detection found a date column. -/
def parse_pdf_tables (pdate : String → Option String) (pfloat : String → Option ℚ)
    (hasDC hasAmount : Bool) (rows : List Row) : List PTxn :=
  rows.filterMap (pdfTableRowToTxn pdate pfloat hasDC hasAmount)

/-- The capture groups of the `_parse_pdf_text` line pattern
`(date) (description) (amount) [Cr|Dr]?`. -/
structure PdfLine where
  dateStr : String
  descStr : String
  amountStr : String
  drCr : Option String := none
deriving DecidableEq, Repr

/-- `"credit" if dr_cr and dr_cr.upper() == "CR" else "debit"`. -/
def drCrIsCredit : Option String → Bool
  | some s => upperStr s = "CR"
  | none => false

/-- The per-line body of `_parse_pdf_text(text)`: the line's optional
regex match is given; lines whose amount cleans to `None` or `0` are
skipped. -/
def pdfLineToTxn (pdate : String → Option String) (pfloat : String → Option ℚ)
    (lm : Option PdfLine) : Option PTxn :=
  match lm with
  | none => none
  | some m =>
    match pdate m.dateStr with
    | none => none
    | some d =>
      match clean_amount pfloat (some m.amountStr) with
      | none => none
      | some a =>
        if a = 0 then none
        else some ⟨d, trimStr m.descStr, a,
              if drCrIsCredit m.drCr then "credit" else "debit", ""⟩

/-- `_parse_pdf_text(text)` over the per-line regex results. -/
def parse_pdf_text (pdate : String → Option String) (pfloat : String → Option ℚ)
    (lines : List (Option PdfLine)) : List PTxn :=
  lines.filterMap (pdfLineToTxn pdate pfloat)

/-- One element of the JSON array returned by the vision model, after
`json.loads`: the already-stringified `date` / `description` / `type`
fields (with their Python `.get` defaults) and the raw `amount` field
(`none` when the key is absent). -/
structure VisionItem where
  dateField : String := ""
  descField : String := ""
  amountField : Option String := none
  typeField : String := "debit"
deriving DecidableEq, Repr

/-- The per-element validation of `_parse_vision_response`: elements
failing any check are dropped; `if not amt or amt <= 0: continue`. -/
def visionItemToTxn (pdate : String → Option String) (pfloat : String → Option ℚ)
    (it : VisionItem) : Option PTxn :=
  match pdate it.dateField with
  | none => none
  | some d =>
    let desc0 := trimStr it.descField
    let desc := if desc0 = "" then "No description" else desc0
    match clean_amount pfloat it.amountField with
    | none => none
    | some a =>
      if a ≤ 0 then none
      else
        let ty := lowerStr it.typeField
        some ⟨d, desc, a, if ty = "debit" ∨ ty = "credit" then ty else "debit", ""⟩

/-- `_parse_vision_response(text)` over the parsed JSON array. -/
def parse_vision_response (pdate : String → Option String) (pfloat : String → Option ℚ)
    (items : List VisionItem) : List PTxn :=
  items.filterMap (visionItemToTxn pdate pfloat)

/-! ### `core/email_parser.py`: transaction extraction from alert emails -/

/-- `_PROMO_KEYWORDS` from `core/email_parser.py`. -/
def PROMO_KEYWORDS : List String :=
  ["view the web version", "view this message in your mobile", "unsubscribe",
   "click here to view", "newsletter", "offer valid", "offers are live",
   "grab incredible", "t&c apply", "terms and conditions apply",
   "limited period offer", "exclusive offer", "exciting offer",
   "cashback offer", "emi plans", "can't see this email properly",
   "aclmails.in", "trkp.aclmails"]

/-- `_REAL_ALERT_MARKERS` from `core/email_parser.py`. -/
def REAL_ALERT_MARKERS : List String :=
  ["debited", "credited", "withdrawn", "spent", "transaction", "txn",
   "payment of", "received", "a/c", "card", "account"]

/-- `_is_promotional(body)`. -/
def is_promotional (body : String) : Bool :=
  let bl := lowerStr body
  if 2 ≤ PROMO_KEYWORDS.countP (fun kw => strContains bl kw) then true
  else if !(REAL_ALERT_MARKERS.any (fun m => strContains bl m)) then true
  else false

/-- `_extract_amount(text)` over the `findall` matches of the
currency-prefixed amount pattern: the first match whose de-comma'd text
parses to a positive number. -/
def extract_amount (pfloat : String → Option ℚ) : List String → Option ℚ
  | [] => none
  | m :: rest =>
    match pfloat (removeCommas m) with
    | some a => if 0 < a then some a else extract_amount pfloat rest
    | none => extract_amount pfloat rest

/-- `_determine_type(text)`: count the matching debit-indicator and
credit-indicator patterns (each abstracted as a `String → Bool` matcher);
credit only on a strictly higher credit score. -/
def determine_type (dp cp : List (String → Bool)) (text : String) : String :=
  let debit_score := dp.countP (fun p => p text)
  let credit_score := cp.countP (fun p => p text)
  if debit_score < credit_score then "credit" else "debit"

/-- `_extract_transaction(body, subject, email_date)`: promotional filter,
amount gate, type scoring, body date falling back to the header date, and
the abstracted description; `body[:2000]` is retained. `amountMatches`
and `bodyDate` are the regex-layer results on `subject + " " + body`, and
`desc` is the `_extract_description` result. -/
def extract_transaction (pfloat : String → Option ℚ) (dp cp : List (String → Bool))
    (amountMatches : List String) (bodyDate : Option String) (desc : String)
    (subject body : String) (emailDate : Option String) : Option PTxn :=
  if is_promotional body then none
  else
    match extract_amount pfloat amountMatches with
    | none => none
    | some a =>
      if a ≤ 0 then none
      else
        let ty := determine_type dp cp (subject ++ " " ++ body)
        match bodyDate with
        | some d => some ⟨d, desc, a, ty, takeStr 2000 body⟩
        | none =>
          match emailDate with
          | some d => some ⟨d, desc, a, ty, takeStr 2000 body⟩
          | none => none

/-! ### Order instances and auxiliary predicates for the theorems -/

instance : IsTotal Rule ruleLE := by
  constructor
  intro a b
  unfold ruleLE
  rcases Nat.lt_trichotomy a.match_count b.match_count with h | h | h
  · exact Or.inr (Or.inl h)
  · rcases le_total a.keyword b.keyword with hk | hk
    · exact Or.inl (Or.inr ⟨h, hk⟩)
    · exact Or.inr (Or.inr ⟨h.symm, hk⟩)
  · exact Or.inl (Or.inl h)

instance : IsTrans Rule ruleLE := by
  constructor
  intro a b c hab hbc
  unfold ruleLE at *
  rcases hab with h1 | ⟨h1, h1k⟩ <;> rcases hbc with h2 | ⟨h2, h2k⟩
  · exact Or.inl (by omega)
  · exact Or.inl (by omega)
  · exact Or.inl (by omega)
  · exact Or.inr ⟨h1.trans h2, le_trans h1k h2k⟩

/-- The CategoryRule invariant: at most one rule per keyword, compared
case-insensitively. -/
def uniqueKeywords (rules : List Rule) : Prop :=
  rules.Pairwise (fun a b => upperStr a.keyword ≠ upperStr b.keyword)

/-! ### Concrete instances used by the witness theorems -/

def wRule : Rule := { keyword := "SWIGGY", category := "Food", source := "user", match_count := 5 }

def wRule2 : Rule := { keyword := "UBER", category := "Travel", source := "user", match_count := 3 }

def wDb : List Rule := [wRule2, wRule]

def wTxn1 : Txn := { id := 1, description := "UPI/P2M/123/Swiggy Order" }

def wTxn2 : Txn := { id := 2, description := "POS 1234 XYZ STORE" }

def wTxns : List Txn := [wTxn1, wTxn2]

def wCats : List String := ["Food", "Travel", "Other"]

def wSvcDown : LLM := { running := false, respond := fun _ => some [(0, "Travel")] }

def wSvcPizza : LLM := { running := true, respond := fun _ => some [(0, "Pizza")] }

def wpf : String → Option ℚ := fun s => if s = "450" then some 450 else none

def wpd : String → Option String := fun s => if s = "01/03/2024" then some ("2024-03-01") else none

def wRowDC : Row :=
  { dateCell := some ("01/03/2024"), descCell := some ("UPI/P2M/123/SWIGGY"),
    debitCell := some ("450"), creditCell := none, amountCell := none }

def wPdfLine : PdfLine :=
  { dateStr := "01/03/2024", descStr := "STORE PURCHASE", amountStr := "450", drCr := none }

def wVItem : VisionItem :=
  { dateField := "01/03/2024", descField := "Shop", amountField := some ("450"),
    typeField := "debit" }

def wBody : String := "Rs.450 debited from your card"

def wDupA : Txn :=
  { id := 1, date := "2024-03-01", description := "ABC STORE", amount := 450, type := "debit" }

def wDupB : Txn :=
  { id := 2, date := "2024-03-01", description := "ABC STORE", amount := 450, type := "debit" }

def wDupTxns : List Txn := [wDupA, wDupB]

/-! ### Dict lemmas -/

theorem dlookup_dinsert (m : Dict) (k q : Int) (v : String) :
    dlookup q (dinsert m k v) = if k = q then some v else dlookup q m := by
  induction m with
  | nil => simp [dinsert, dlookup]
  | cons p rest ih =>
    obtain ⟨a, b⟩ := p
    by_cases hak : a = k
    · subst hak
      simp only [dinsert, if_pos rfl, dlookup]
      by_cases haq : a = q <;> simp [haq, dlookup]
    · simp only [dinsert, if_neg hak, dlookup]
      rw [ih]
      by_cases haq : a = q <;> by_cases hkq : k = q <;> simp_all

/-! ### `upsert_category_rule` lemmas -/

theorem upsertAux_keyword_mem (kw cat src : String) (rules : List Rule) :
    ∀ r ∈ upsertAux kw cat src rules,
      (∃ r0 ∈ rules, r.keyword = r0.keyword) ∨ r.keyword = kw := by
  induction rules with
  | nil =>
    intro r hr
    simp only [upsertAux, List.mem_singleton] at hr
    subst hr
    right
    rfl
  | cons a rest ih =>
    intro r hr
    simp only [upsertAux] at hr
    by_cases h : upperStr a.keyword = upperStr kw
    · rw [if_pos h] at hr
      by_cases hc : a.category = cat
      · rw [if_pos hc] at hr
        rcases List.mem_cons.mp hr with h1 | h1
        · subst h1; left; exact ⟨a, List.mem_cons_self a rest, rfl⟩
        · left; exact ⟨r, List.mem_cons_of_mem a h1, rfl⟩
      · rw [if_neg hc] at hr
        rcases List.mem_cons.mp hr with h1 | h1
        · subst h1; left; exact ⟨a, List.mem_cons_self a rest, rfl⟩
        · left; exact ⟨r, List.mem_cons_of_mem a h1, rfl⟩
    · rw [if_neg h] at hr
      rcases List.mem_cons.mp hr with h1 | h1
      · left; exact ⟨a, List.mem_cons_self a rest, by rw [h1]⟩
      · rcases ih r h1 with ⟨r0, hr0, hk⟩ | hk
        · left; exact ⟨r0, List.mem_cons_of_mem a hr0, hk⟩
        · right; exact hk

theorem upsertAux_unique (kw cat src : String) (rules : List Rule)
    (h : uniqueKeywords rules) : uniqueKeywords (upsertAux kw cat src rules) := by
  induction rules with
  | nil => simp [upsertAux, uniqueKeywords]
  | cons a rest ih =>
    rw [uniqueKeywords, List.pairwise_cons] at h
    obtain ⟨ha, hrest⟩ := h
    simp only [upsertAux]
    by_cases h : upperStr a.keyword = upperStr kw
    · rw [if_pos h]
      by_cases hc : a.category = cat
      · rw [if_pos hc, uniqueKeywords, List.pairwise_cons]
        exact ⟨fun b hb => ha b hb, hrest⟩
      · rw [if_neg hc, uniqueKeywords, List.pairwise_cons]
        exact ⟨fun b hb => ha b hb, hrest⟩
    · rw [if_neg h, uniqueKeywords, List.pairwise_cons]
      constructor
      · intro b hb
        rcases upsertAux_keyword_mem kw cat src rest b hb with ⟨r0, hr0, hbk⟩ | hbk
        · rw [hbk]; exact ha r0 hr0
        · rw [hbk]; exact h
      · exact ih hrest

theorem upsertAux_found (kw cat src : String) (pre post : List Rule) (r : Rule)
    (hpre : ∀ p ∈ pre, upperStr p.keyword ≠ upperStr kw)
    (hr : upperStr r.keyword = upperStr kw) :
    upsertAux kw cat src (pre ++ r :: post)
      = pre ++ (if r.category = cat then { r with match_count := r.match_count + 1 }
                else { r with category := cat, source := src, match_count := 1 }) :: post := by
  induction pre with
  | nil =>
    simp only [List.nil_append, upsertAux, if_pos hr]
    by_cases hc : r.category = cat <;> simp [hc]
  | cons a pre ih =>
    have hane : upperStr a.keyword ≠ upperStr kw := hpre a (List.mem_cons_self a pre)
    simp only [List.cons_append, upsertAux, if_neg hane]
    exact congrArg (fun l => a :: l) (ih (fun p hp => hpre p (List.mem_cons_of_mem a hp)))

/-- C10: `upsert_category_rule` is a no-op whenever the keyword strips to
fewer than 2 characters; consequently, if every stored rule has a keyword
of length at least 2, this still holds after any upsert. -/
theorem C10_short_keyword_guard (rules : List Rule) (kw cat src : String) :
    (strLen (trimStr kw) < 2 → upsert_category_rule rules kw cat src = rules) ∧
    ((∀ r ∈ rules, 2 ≤ strLen r.keyword) →
      ∀ r ∈ upsert_category_rule rules kw cat src, 2 ≤ strLen r.keyword) := by
  constructor
  · intro h
    simp [upsert_category_rule, h]
  · intro hall r hr
    unfold upsert_category_rule at hr
    by_cases hlen : strLen (trimStr kw) < 2
    · rw [if_pos hlen] at hr
      exact hall r hr
    · rw [if_neg hlen] at hr
      rcases upsertAux_keyword_mem (trimStr kw) cat src rules r hr with ⟨r0, hr0, hk⟩ | hk
      · rw [hk]; exact hall r0 hr0
      · rw [hk]; omega

theorem C10_short_keyword_guard_witness :
    (strLen (trimStr " x ") < 2 ∧ upsert_category_rule wDb " x " "Food" "user" = wDb) ∧
    ((∀ r ∈ wDb, 2 ≤ strLen r.keyword) ∧
      ∀ r ∈ upsert_category_rule wDb "cred club" "EMI" "user", 2 ≤ strLen r.keyword) :=
  ⟨⟨by decide, (C10_short_keyword_guard wDb " x " "Food" "user").1 (by decide)⟩,
   ⟨by decide, (C10_short_keyword_guard wDb "cred club" "EMI" "user").2 (by decide)⟩⟩

/-- C3: `upsert_category_rule` preserves the at-most-one-rule-per-keyword
invariant (case-insensitive); on the first stored rule matching the
stripped keyword case-insensitively, the same category bumps its
`match_count` in place (no new row), while a different category overwrites
the rule and resets `match_count` to the base value 1. -/
theorem C3_rule_upsert_overwrite (rules pre post : List Rule) (r : Rule) (kw cat src : String) :
    (uniqueKeywords rules → uniqueKeywords (upsert_category_rule rules kw cat src)) ∧
    (2 ≤ strLen (trimStr kw) →
      (∀ p ∈ pre, upperStr p.keyword ≠ upperStr (trimStr kw)) →
      upperStr r.keyword = upperStr (trimStr kw) →
      ((r.category = cat →
          upsert_category_rule (pre ++ r :: post) kw cat src
            = pre ++ { r with match_count := r.match_count + 1 } :: post) ∧
       (r.category ≠ cat →
          upsert_category_rule (pre ++ r :: post) kw cat src
            = pre ++ { r with category := cat, source := src, match_count := 1 } :: post))) := by
  constructor
  · intro hu
    unfold upsert_category_rule
    by_cases hlen : strLen (trimStr kw) < 2
    · rw [if_pos hlen]; exact hu
    · rw [if_neg hlen]; exact upsertAux_unique _ _ _ _ hu
  · intro hlen hpre hr
    have hguard : ¬ strLen (trimStr kw) < 2 := by omega
    constructor
    · intro hc
      unfold upsert_category_rule
      rw [if_neg hguard, upsertAux_found _ cat src pre post r hpre hr, if_pos hc]
    · intro hc
      unfold upsert_category_rule
      rw [if_neg hguard, upsertAux_found _ cat src pre post r hpre hr, if_neg hc]

theorem C3_rule_upsert_overwrite_witness :
    (uniqueKeywords wDb ∧ uniqueKeywords (upsert_category_rule wDb "swiggy " "Food" "user")) ∧
    (2 ≤ strLen (trimStr "swiggy ") ∧
      upsert_category_rule ([wRule2] ++ wRule :: []) "swiggy " "Food" "user"
        = [wRule2] ++ { wRule with match_count := 6 } :: [] ∧
      upsert_category_rule ([wRule2] ++ wRule :: []) "swiggy " "Credit Card Payment" "user"
        = [wRule2] ++ (⟨"SWIGGY", "Credit Card Payment", "user", 1⟩ : Rule) :: []) := by
  have hu : uniqueKeywords wDb := by
    unfold uniqueKeywords wDb
    refine List.pairwise_cons.mpr ⟨?_, ?_⟩
    · intro b hb
      rcases List.mem_singleton.mp hb with rfl
      decide
    · simp
  refine ⟨⟨hu, (C3_rule_upsert_overwrite wDb [] [] wRule "swiggy " "Food" "user").1 hu⟩,
    by decide,
    ((C3_rule_upsert_overwrite wDb [wRule2] [] wRule "swiggy " "Food" "user").2
      (by decide) (by decide) (by decide)).1 (by decide),
    ((C3_rule_upsert_overwrite wDb [wRule2] [] wRule "swiggy " "Credit Card Payment" "user").2
      (by decide) (by decide) (by decide)).2 (by decide)⟩

/-! ### Rule-layer lemmas -/

theorem applyRulesAux_preserve (rules : List Rule) (txns : List Txn) (acc : Dict) (k : Int)
    (h : ∀ t ∈ txns, t.id ≠ k) :
    dlookup k (applyRulesAux rules txns acc) = dlookup k acc := by
  induction txns generalizing acc with
  | nil => rfl
  | cons t rest ih =>
    have ht : t.id ≠ k := h t (List.mem_cons_self t rest)
    have hrest : ∀ u ∈ rest, u.id ≠ k := fun u hu => h u (List.mem_cons_of_mem t hu)
    simp only [applyRulesAux]
    cases hm : firstRuleMatch rules t.description with
    | none => exact ih _ hrest
    | some r => rw [ih _ hrest, dlookup_dinsert, if_neg ht]

theorem applyRulesAux_lookup (rules : List Rule) (txns : List Txn) (acc : Dict) (t : Txn)
    (hids : (txns.map (fun u => u.id)).Nodup) (ht : t ∈ txns)
    (hacc : dlookup t.id acc = none) :
    dlookup t.id (applyRulesAux rules txns acc)
      = (firstRuleMatch rules t.description).map (fun r => r.category) := by
  induction txns generalizing acc with
  | nil => cases ht
  | cons u rest ih =>
    simp only [List.map_cons, List.nodup_cons] at hids
    obtain ⟨hu_nin, hrest_nodup⟩ := hids
    rcases List.mem_cons.mp ht with rfl | htr
    · have hne : ∀ v ∈ rest, v.id ≠ t.id := by
        intro v hv hvid
        exact hu_nin (by rw [← hvid]; exact List.mem_map_of_mem _ hv)
      simp only [applyRulesAux]
      cases hm : firstRuleMatch rules t.description with
      | some r =>
        rw [applyRulesAux_preserve rules rest _ _ hne, dlookup_dinsert, if_pos rfl]
        simp
      | none =>
        rw [applyRulesAux_preserve rules rest _ _ hne, hacc]
        simp
    · have hune : u.id ≠ t.id := by
        intro h
        exact hu_nin (by rw [h]; exact List.mem_map_of_mem _ htr)
      simp only [applyRulesAux]
      cases hm : firstRuleMatch rules u.description with
      | some r =>
        refine ih _ hrest_nodup htr ?_
        rw [dlookup_dinsert, if_neg hune]
        exact hacc
      | none => exact ih _ hrest_nodup htr hacc

theorem apply_rules_lookup (db : List Rule) (txns : List Txn) (t : Txn)
    (hids : (txns.map (fun u => u.id)).Nodup) (ht : t ∈ txns) :
    dlookup t.id (apply_rules_to_transactions db txns)
      = (firstRuleMatch (get_all_rules db) t.description).map (fun r => r.category) := by
  unfold apply_rules_to_transactions
  by_cases hre : (get_all_rules db).isEmpty
  · have hnil : get_all_rules db = [] := List.isEmpty_iff.mp hre
    rw [if_pos hre, hnil]
    simp [firstRuleMatch, dlookup]
  · rw [if_neg hre]
    exact applyRulesAux_lookup _ _ _ _ hids ht rfl

/-! ### Model-layer lemmas -/

theorem processMapping_avoid (ids : List Int) (blen : Nat) (cats : List String) (k : Int)
    (mapping : List (Int × String))
    (hav : ∀ q ∈ mapping, 0 ≤ q.1 → q.1 < (blen : Int) → ids.getD q.1.toNat 0 ≠ k) :
    ∀ acc, dlookup k (processMapping acc ids blen cats mapping) = dlookup k acc := by
  induction mapping with
  | nil => intro acc; rfl
  | cons e rest ih =>
    intro acc
    obtain ⟨idx, category⟩ := e
    have hav' : ∀ q ∈ rest, 0 ≤ q.1 → q.1 < (blen : Int) → ids.getD q.1.toNat 0 ≠ k :=
      fun q hq => hav q (List.mem_cons_of_mem _ hq)
    simp only [processMapping]
    rw [ih hav']
    by_cases hin : 0 ≤ idx ∧ idx < (blen : Int)
    · rw [if_pos hin]
      have hne : ids.getD idx.toNat 0 ≠ k :=
        hav (idx, category) (List.mem_cons_self _ _) hin.1 hin.2
      by_cases hcat : category ∈ cats
      · rw [if_pos hcat, dlookup_dinsert, if_neg hne]
      · rw [if_neg hcat, dlookup_dinsert, if_neg hne]
    · rw [if_neg hin]

theorem modelLayer_preserve_aux (svc : LLM) (cats : List String) (k : Int) :
    ∀ (n : Nat) (rem : List Txn), rem.length ≤ n → ∀ (acc : Dict),
      (∀ t ∈ rem, t.id ≠ k) →
      dlookup k (modelLayer svc cats rem acc) = dlookup k acc := by
  intro n
  induction n with
  | zero =>
    intro rem hlen acc hk
    have : rem = [] := List.eq_nil_of_length_eq_zero (Nat.le_zero.mp hlen)
    subst this
    simp [modelLayer]
  | succ n ih =>
    intro rem hlen acc hk
    cases rem with
    | nil => simp [modelLayer]
    | cons t rest =>
      rw [modelLayer]
      have hdrop : ((t :: rest).drop BATCH_SIZE).length ≤ n := by
        simp only [List.length_drop, List.length_cons] at *
        simp only [BATCH_SIZE]
        omega
      have hkdrop : ∀ u ∈ (t :: rest).drop BATCH_SIZE, u.id ≠ k :=
        fun u hu => hk u (List.drop_subset _ _ hu)
      rw [ih _ hdrop _ hkdrop]
      cases hresp : svc.respond ((t :: rest).take BATCH_SIZE) with
      | none => rfl
      | some mapping =>
        apply processMapping_avoid
        intro q hq h0 hblen
        have hlenids : q.1.toNat < (((t :: rest).take BATCH_SIZE).map (fun u => u.id)).length := by
          rw [List.length_map]
          omega
        rw [List.getD_eq_getElem _ _ hlenids]
        have hmem : (((t :: rest).take BATCH_SIZE).map (fun u => u.id))[q.1.toNat] ∈
            ((t :: rest).take BATCH_SIZE).map (fun u => u.id) := by
          exact List.getElem_mem hlenids
        rcases List.mem_map.mp hmem with ⟨u, hu, hui⟩
        rw [← hui]
        exact hk u (List.take_subset _ _ hu)

theorem modelLayer_preserve (svc : LLM) (cats : List String) (k : Int) (rem : List Txn)
    (acc : Dict) (hk : ∀ t ∈ rem, t.id ≠ k) :
    dlookup k (modelLayer svc cats rem acc) = dlookup k acc :=
  modelLayer_preserve_aux svc cats k rem.length rem le_rfl acc hk

/-- C2: a transaction whose description matches a stored rule
(case-insensitive substring) is categorized with the category of the
first matching rule in `match_count DESC, keyword` order — whatever the
generation service is and whatever it would answer — and transactions
matching no rule are exactly the ones passed on to the model layer. -/
theorem C2_rule_layer_short_circuit (db : List Rule) (txns : List Txn) (t : Txn) (r : Rule)
    (cats : List String)
    (hids : (txns.map (fun u => u.id)).Nodup) (ht : t ∈ txns)
    (hr : firstRuleMatch (get_all_rules db) t.description = some r) :
    List.Sorted ruleLE (get_all_rules db) ∧ (get_all_rules db).Perm db ∧
    (∀ (svc : LLM) (m : Dict), categorize_transactions db svc txns cats = .ok m →
      dlookup t.id m = some r.category) ∧
    (∀ t' ∈ txns, firstRuleMatch (get_all_rules db) t'.description = none →
      t' ∈ txns.filter (fun u => (dlookup u.id (apply_rules_to_transactions db txns)).isNone)) := by
  have hlook : dlookup t.id (apply_rules_to_transactions db txns) = some r.category := by
    rw [apply_rules_lookup db txns t hids ht, hr]
    rfl
  refine ⟨List.sorted_insertionSort ruleLE db, List.perm_insertionSort ruleLE db, ?_, ?_⟩
  · intro svc m hm
    have hne : txns.isEmpty = false := by
      cases txns
      · cases ht
      · rfl
    simp only [categorize_transactions, hne, Bool.false_eq_true, if_false] at hm
    split at hm
    · rw [← Except.ok.inj hm]
      exact hlook
    · split at hm
      · exact Except.noConfusion hm
      · rw [← Except.ok.inj hm]
        rw [modelLayer_preserve]
        · exact hlook
        · intro u hu heq
          have hu' := (List.mem_filter.mp hu).2
          rw [heq] at hu'
          rw [hlook] at hu'
          cases hu'
  · intro t' ht' hnone
    have h2 : dlookup t'.id (apply_rules_to_transactions db txns) = none := by
      rw [apply_rules_lookup db txns t' hids ht', hnone]
      rfl
    exact List.mem_filter.mpr ⟨ht', by rw [h2]; rfl⟩

theorem C2_rule_layer_short_circuit_witness :
    ((wTxns.map (fun u => u.id)).Nodup ∧ wTxn1 ∈ wTxns ∧
      firstRuleMatch (get_all_rules wDb) wTxn1.description = some wRule) ∧
    (List.Sorted ruleLE (get_all_rules wDb) ∧ (get_all_rules wDb).Perm wDb ∧
      (∀ (svc : LLM) (m : Dict), categorize_transactions wDb svc wTxns wCats = .ok m →
        dlookup wTxn1.id m = some wRule.category) ∧
      (∀ t' ∈ wTxns, firstRuleMatch (get_all_rules wDb) t'.description = none →
        t' ∈ wTxns.filter (fun u =>
          (dlookup u.id (apply_rules_to_transactions wDb wTxns)).isNone))) :=
  ⟨⟨by decide, by decide, by decide⟩,
   C2_rule_layer_short_circuit wDb wTxns wTxn1 wRule wCats (by decide) (by decide) (by decide)⟩

/-- C9: `categorize_transactions` returns the empty mapping on an empty
input, and when every transaction is matched by a stored rule it returns
exactly the rule-layer mapping for every service value — reachable or
not — so no reachability check or call can be observed. -/
theorem C9_no_service_call_when_resolved (db : List Rule) (cats : List String) (svc : LLM)
    (txns : List Txn)
    (hids : (txns.map (fun u => u.id)).Nodup)
    (hall : ∀ t ∈ txns, (firstRuleMatch (get_all_rules db) t.description).isSome) :
    categorize_transactions db svc [] cats = .ok [] ∧
    categorize_transactions db svc txns cats = .ok (apply_rules_to_transactions db txns) := by
  constructor
  · rfl
  · cases txns with
    | nil =>
      have h0 : apply_rules_to_transactions db [] = [] := by
        show (if (get_all_rules db).isEmpty = true then []
          else applyRulesAux (get_all_rules db) [] []) = []
        split <;> rfl
      rw [h0]
      rfl
    | cons a l =>
      have hfilter : ((a :: l).filter (fun u =>
          (dlookup u.id (apply_rules_to_transactions db (a :: l))).isNone)) = [] := by
        apply List.filter_eq_nil_iff.mpr
        intro u hu
        have hlk := apply_rules_lookup db (a :: l) u hids hu
        rcases Option.isSome_iff_exists.mp (hall u hu) with ⟨r, hrr⟩
        rw [hrr] at hlk
        simp only [Option.map_some'] at hlk
        rw [hlk]
        simp
      simp only [categorize_transactions, List.isEmpty_cons, Bool.false_eq_true, if_false,
        hfilter, List.isEmpty_nil, if_true]

theorem C9_no_service_call_when_resolved_witness :
    (([wTxn1].map (fun u => u.id)).Nodup ∧
      (∀ t ∈ [wTxn1], (firstRuleMatch (get_all_rules wDb) t.description).isSome)) ∧
    (categorize_transactions wDb wSvcDown [] wCats = .ok [] ∧
      categorize_transactions wDb wSvcDown [wTxn1] wCats
        = .ok (apply_rules_to_transactions wDb [wTxn1])) :=
  ⟨⟨by decide, by decide⟩,
   C9_no_service_call_when_resolved wDb wCats wSvcDown [wTxn1] (by decide) (by decide)⟩

/-- C1 (amended): when the input is non-empty, some transaction is left
unresolved by the rule layer and the service is unreachable,
`categorize_transactions` raises — it returns the `RuntimeError` and the
rule-layer results are discarded, not returned to the caller. -/
theorem C1_unreachable_service_error (db : List Rule) (svc : LLM) (txns : List Txn)
    (cats : List String) (t : Txn)
    (ht : t ∈ txns)
    (hunres : dlookup t.id (apply_rules_to_transactions db txns) = none)
    (hdown : svc.running = false) :
    categorize_transactions db svc txns cats = .error ("Ollama is not running") := by
  have hne : txns.isEmpty = false := by
    cases txns
    · cases ht
    · rfl
  have hmem : t ∈ txns.filter
      (fun u => (dlookup u.id (apply_rules_to_transactions db txns)).isNone) :=
    List.mem_filter.mpr ⟨ht, by rw [hunres]; rfl⟩
  have hfne : (txns.filter
      (fun u => (dlookup u.id (apply_rules_to_transactions db txns)).isNone)).isEmpty = false := by
    cases hfe : txns.filter
        (fun u => (dlookup u.id (apply_rules_to_transactions db txns)).isNone) with
    | nil => rw [hfe] at hmem; cases hmem
    | cons x xs => rfl
  simp only [categorize_transactions, hne, Bool.false_eq_true, if_false, hfne, hdown,
    Bool.not_false, if_true]

theorem C1_unreachable_service_error_witness :
    (wTxn2 ∈ wTxns ∧ dlookup wTxn2.id (apply_rules_to_transactions wDb wTxns) = none ∧
      wSvcDown.running = false) ∧
    categorize_transactions wDb wSvcDown wTxns wCats = .error ("Ollama is not running") :=
  ⟨⟨by decide, by decide, by decide⟩,
   C1_unreachable_service_error wDb wSvcDown wTxns wCats wTxn2 (by decide) (by decide)
     (by decide)⟩

/-- C1 (counterexample to the claim as stated): with a rule matching the
first transaction, the second unresolved, and the service down, the call
returns the explicit error and does NOT return the (non-empty) rule-layer
results to the caller. -/
theorem C1_counterexample :
    wSvcDown.running = false ∧
    apply_rules_to_transactions wDb wTxns = [(1, "Food")] ∧
    categorize_transactions wDb wSvcDown wTxns wCats = .error ("Ollama is not running") ∧
    categorize_transactions wDb wSvcDown wTxns wCats
      ≠ .ok (apply_rules_to_transactions wDb wTxns) := by
  refine ⟨rfl, by decide, rfl, fun h => ?_⟩
  exact Except.noConfusion
    ((rfl : categorize_transactions wDb wSvcDown wTxns wCats
        = Except.error ("Ollama is not running")).symm.trans h)

/-! ### Model-response processing lemmas -/

theorem nodup_getD_ne (ids : List Int) (h : ids.Nodup) (m n : Nat)
    (hm : m < ids.length) (hn : n < ids.length) (hmn : m ≠ n) :
    ids.getD m 0 ≠ ids.getD n 0 := by
  rw [List.getD_eq_getElem _ _ hm, List.getD_eq_getElem _ _ hn]
  intro he
  exact hmn (by
    have := List.Nodup.get_inj_iff h (i := ⟨m, hm⟩) (j := ⟨n, hn⟩)
    simp only [List.get_eq_getElem] at this
    have h2 := this.mp he
    exact congrArg Fin.val h2)

theorem processMapping_lookup (ids : List Int) (cats : List String) (idx : Int)
    (category : String) (hids : ids.Nodup) (h0 : 0 ≤ idx) (hlt : idx.toNat < ids.length) :
    ∀ (mapping : List (Int × String)) (acc : Dict),
      (mapping.map (fun q => q.1)).Nodup → (idx, category) ∈ mapping →
      dlookup (ids.getD idx.toNat 0) (processMapping acc ids ids.length cats mapping)
        = some (if category ∈ cats then category else "Other") := by
  intro mapping
  induction mapping with
  | nil =>
    intro acc _ h
    cases h
  | cons e rest ih =>
    intro acc hnodup hmem
    obtain ⟨eidx, ecat⟩ := e
    simp only [List.map_cons, List.nodup_cons] at hnodup
    obtain ⟨hnin, hrest⟩ := hnodup
    rcases List.mem_cons.mp hmem with heq | hmem'
    · rw [Prod.mk.injEq] at heq
      obtain ⟨h1, h2⟩ := heq
      subst h1
      subst h2
      simp only [processMapping]
      have hin : 0 ≤ idx ∧ idx < (ids.length : Int) := ⟨h0, by omega⟩
      rw [if_pos hin]
      have havoid : ∀ q ∈ rest, 0 ≤ q.1 → q.1 < ((ids.length : Nat) : Int) →
          ids.getD q.1.toNat 0 ≠ ids.getD idx.toNat 0 := by
        intro q hq hq0 hqlt
        have hqne : q.1 ≠ idx := by
          intro hqe
          exact hnin (by rw [← hqe]; exact List.mem_map_of_mem _ hq)
        apply nodup_getD_ne ids hids _ _ (by omega) hlt
        omega
      by_cases hcat : category ∈ cats
      · rw [if_pos hcat, processMapping_avoid _ _ _ _ _ havoid, dlookup_dinsert, if_pos rfl,
          if_pos hcat]
      · rw [if_neg hcat, processMapping_avoid _ _ _ _ _ havoid, dlookup_dinsert, if_pos rfl,
          if_neg hcat]
    · simp only [processMapping]
      exact ih _ hrest hmem'

/-- C7: a parsed model response naming a category outside the allowed
list is recorded as the reserved `"Other"` value for the corresponding
transaction id, and an allowed category is recorded verbatim — both in
the batch loop of `categorize_transactions` and in `categorize_single`. -/
theorem C7_category_coercion :
    (∀ (acc : Dict) (ids : List Int) (cats : List String) (mapping : List (Int × String))
        (idx : Int) (category : String),
        ids.Nodup → (mapping.map (fun q => q.1)).Nodup →
        (idx, category) ∈ mapping → 0 ≤ idx → idx.toNat < ids.length →
        dlookup (ids.getD idx.toNat 0) (processMapping acc ids ids.length cats mapping)
          = some (if category ∈ cats then category else "Other")) ∧
    (∀ (svc : LLM) (desc : String) (cats : List String) (mapping : List (Int × String))
        (category : String),
        svc.running = true →
        svc.respond [{ id := -1, description := desc }] = some mapping →
        dlookup 0 mapping = some category →
        categorize_single svc desc cats
          = some (if category ∈ cats then category else "Other")) := by
  constructor
  · intro acc ids cats mapping idx category hids hkeys hmem h0 hlt
    exact processMapping_lookup ids cats idx category hids h0 hlt mapping acc hkeys hmem
  · intro svc desc cats mapping category hrun hresp hlook
    simp only [categorize_single, hrun, Bool.not_true, Bool.false_eq_true, if_false, hresp,
      hlook]

theorem C7_category_coercion_witness :
    (([10, 11] : List Int).Nodup ∧
      (([((1 : Int), "Pizza")].map (fun q => q.1)).Nodup) ∧
      ((1 : Int), "Pizza") ∈ [((1 : Int), "Pizza")] ∧ (0 : Int) ≤ 1 ∧
      (1 : Int).toNat < ([10, 11] : List Int).length ∧
      dlookup (([10, 11] : List Int).getD (1 : Int).toNat 0)
          (processMapping [] [10, 11] ([10, 11] : List Int).length wCats [((1 : Int), "Pizza")])
        = some (if "Pizza" ∈ wCats then "Pizza" else "Other")) ∧
    (wSvcPizza.running = true ∧
      wSvcPizza.respond [{ id := -1, description := "x" }] = some [(0, "Pizza")] ∧
      dlookup 0 [(0, "Pizza")] = some "Pizza" ∧
      categorize_single wSvcPizza "x" wCats = some (if "Pizza" ∈ wCats then "Pizza" else "Other")) :=
  ⟨⟨by decide, by decide, by decide, by decide, by decide,
    C7_category_coercion.1 [] [10, 11] wCats [((1 : Int), "Pizza")] 1 "Pizza" (by decide)
      (by decide) (by decide) (by decide) (by decide)⟩,
   ⟨rfl, rfl, by decide,
    C7_category_coercion.2 wSvcPizza "x" wCats [(0, "Pizza")] "Pizza" rfl rfl (by decide)⟩⟩

/-- C8: the email extractor's debit/credit decision counts the matching
debit-indicator and credit-indicator patterns and returns `"credit"`
exactly when the credit count is strictly greater, `"debit"` in every
other case (ties and zero matches included). -/
theorem C8_type_scoring (dp cp : List (String → Bool)) (text : String) :
    (determine_type dp cp text = "credit" ↔
      dp.countP (fun p => p text) < cp.countP (fun p => p text)) ∧
    (determine_type dp cp text = "debit" ↔
      ¬ dp.countP (fun p => p text) < cp.countP (fun p => p text)) := by
  unfold determine_type
  by_cases h : dp.countP (fun p => p text) < cp.countP (fun p => p text) <;>
    simp [h]

/-- C4: `detect_cc_payments` returns exactly the ids of bank-source
debits whose lowercased description contains a `CC_PAYMENT_KEYWORDS`
entry, and `flag_cc_payments_visible` on those ids sets `is_cc_payment`,
`is_excluded` and the reserved category on exactly the rows whose id was
detected, leaving every other row unchanged. -/
theorem C4_cc_payment_flagging (txns : List Txn) (table : List DbTxn) :
    (∀ i : Int, i ∈ detect_cc_payments txns ↔
      ∃ t ∈ txns, t.id = i ∧ t.source = "bank" ∧ t.type = "debit" ∧
        matches_cc_keywords (lowerStr t.description) = true) ∧
    flag_cc_payments_visible table (detect_cc_payments txns)
      = table.map (fun t =>
          if t.id ∈ detect_cc_payments txns then
            { t with is_cc_payment := true, is_excluded := true,
                     category := some ("Credit Card Payment") }
          else t) := by
  constructor
  · intro i
    simp only [detect_cc_payments, List.mem_map, List.mem_filter, Bool.and_eq_true,
      decide_eq_true_eq]
    constructor
    · rintro ⟨t, ⟨htm, ⟨⟨hs, ht⟩, hk⟩⟩, hid⟩
      exact ⟨t, htm, hid, hs, ht, hk⟩
    · rintro ⟨t, htm, hid, hs, ht, hk⟩
      exact ⟨t, ⟨htm, ⟨⟨hs, ht⟩, hk⟩⟩, hid⟩
  · unfold flag_cc_payments_visible
    by_cases h : (detect_cc_payments txns).isEmpty
    · rw [if_pos h]
      have hnil : detect_cc_payments txns = [] := List.isEmpty_iff.mp h
      rw [hnil]
      simp
    · rw [if_neg h]

/-! ### Amount-positivity lemmas for the extractors -/

theorem ratAbs_nonneg (q : ℚ) : 0 ≤ ratAbs q := by
  by_cases h : q < 0
  · simp only [ratAbs, if_pos h]
    linarith
  · simp only [ratAbs, if_neg h]
    linarith

theorem posOnly_pos (o : Option ℚ) (a : ℚ) (h : posOnly o = some a) : 0 < a := by
  cases o with
  | none => simp [posOnly] at h
  | some x =>
    simp only [posOnly] at h
    by_cases hx : 0 < x
    · rw [if_pos hx] at h
      injection h with h'
      rw [← h']
      exact hx
    · rw [if_neg hx] at h
      cases h

theorem clean_amount_nonneg (pfloat : String → Option ℚ) (o : Option String) (a : ℚ)
    (h : clean_amount pfloat o = some a) : 0 ≤ a := by
  cases o with
  | none => simp [clean_amount] at h
  | some v =>
    simp only [clean_amount] at h
    split at h
    · cases h
    · obtain ⟨q, _, hfa⟩ := Option.map_eq_some'.mp h
      rw [← hfa]
      exact ratAbs_nonneg q

theorem csvRowToTxn_pos (pdate : String → Option String) (pfloat : String → Option ℚ)
    (hasDate hasDesc hasDebit hasCredit hasAmount : Bool) (row : Row) (t : PTxn)
    (h : csvRowToTxn pdate pfloat hasDate hasDesc hasDebit hasCredit hasAmount row = some t) :
    0 < t.amount := by
  unfold csvRowToTxn at h
  split at h
  · cases h
  · split at h
    · split at h
      · rename_i a ha
        injection h with h'
        rw [← h']
        exact posOnly_pos _ _ ha
      · split at h
        · rename_i a ha
          injection h with h'
          rw [← h']
          exact posOnly_pos _ _ ha
        · cases h
    · split at h
      · split at h
        · rename_i a ha
          split at h
          · rename_i hpos
            injection h with h'
            rw [← h']
            exact hpos
          · cases h
        · cases h
      · cases h

theorem pdfTableRowToTxn_pos (pdate : String → Option String) (pfloat : String → Option ℚ)
    (hasDC hasAmount : Bool) (row : Row) (t : PTxn)
    (h : pdfTableRowToTxn pdate pfloat hasDC hasAmount row = some t) :
    0 < t.amount := by
  unfold pdfTableRowToTxn at h
  split at h
  · cases h
  · split at h
    · split at h
      · rename_i a ha
        injection h with h'
        rw [← h']
        exact posOnly_pos _ _ ha
      · split at h
        · rename_i a ha
          injection h with h'
          rw [← h']
          exact posOnly_pos _ _ ha
        · cases h
    · split at h
      · split at h
        · rename_i a ha
          injection h with h'
          rw [← h']
          exact posOnly_pos _ _ ha
        · cases h
      · cases h

theorem pdfLineToTxn_pos (pdate : String → Option String) (pfloat : String → Option ℚ)
    (lm : Option PdfLine) (t : PTxn) (h : pdfLineToTxn pdate pfloat lm = some t) :
    0 < t.amount := by
  unfold pdfLineToTxn at h
  split at h
  · cases h
  · split at h
    · cases h
    · split at h
      · cases h
      · rename_i a ha
        split at h
        · cases h
        · rename_i hz
          injection h with h'
          rw [← h']
          have := clean_amount_nonneg pfloat _ _ ha
          rcases lt_or_eq_of_le this with hlt | heq
          · exact hlt
          · exact absurd heq.symm hz

theorem visionItemToTxn_pos (pdate : String → Option String) (pfloat : String → Option ℚ)
    (it : VisionItem) (t : PTxn) (h : visionItemToTxn pdate pfloat it = some t) :
    0 < t.amount := by
  unfold visionItemToTxn at h
  split at h
  · cases h
  · split at h
    · cases h
    · rename_i a _
      split at h
      · cases h
      · rename_i hle
        injection h with h'
        rw [← h']
        exact lt_of_not_le hle

/-- C5: every transaction record produced by the CSV/spreadsheet row
conversion, the PDF table rows, the PDF text lines, the vision-response
validation, or the email extractor carries a strictly positive amount
(zero, negative-only and unparsable amounts are skipped, and the cleaned
amount is an absolute value, so no sign ever reaches the field). -/
theorem C5_extracted_amounts_positive :
    (∀ (pdate : String → Option String) (pfloat : String → Option ℚ)
        (hasDate hasDesc hasDebit hasCredit hasAmount : Bool) (rows : List Row),
      ∀ t ∈ dataframe_to_transactions pdate pfloat hasDate hasDesc hasDebit hasCredit
          hasAmount rows, 0 < t.amount) ∧
    (∀ (pdate : String → Option String) (pfloat : String → Option ℚ)
        (hasDC hasAmount : Bool) (rows : List Row),
      ∀ t ∈ parse_pdf_tables pdate pfloat hasDC hasAmount rows, 0 < t.amount) ∧
    (∀ (pdate : String → Option String) (pfloat : String → Option ℚ)
        (lines : List (Option PdfLine)),
      ∀ t ∈ parse_pdf_text pdate pfloat lines, 0 < t.amount) ∧
    (∀ (pdate : String → Option String) (pfloat : String → Option ℚ)
        (items : List VisionItem),
      ∀ t ∈ parse_vision_response pdate pfloat items, 0 < t.amount) ∧
    (∀ (pfloat : String → Option ℚ) (dp cp : List (String → Bool))
        (amountMatches : List String) (bodyDate : Option String) (desc subject body : String)
        (emailDate : Option String) (t : PTxn),
      extract_transaction pfloat dp cp amountMatches bodyDate desc subject body emailDate
        = some t → 0 < t.amount) := by
  refine ⟨?_, ?_, ?_, ?_, ?_⟩
  · intro pdate pfloat hasDate hasDesc hasDebit hasCredit hasAmount rows t ht
    obtain ⟨row, _, hrow⟩ := List.mem_filterMap.mp ht
    exact csvRowToTxn_pos pdate pfloat hasDate hasDesc hasDebit hasCredit hasAmount row t hrow
  · intro pdate pfloat hasDC hasAmount rows t ht
    obtain ⟨row, _, hrow⟩ := List.mem_filterMap.mp ht
    exact pdfTableRowToTxn_pos pdate pfloat hasDC hasAmount row t hrow
  · intro pdate pfloat lines t ht
    obtain ⟨lm, _, hlm⟩ := List.mem_filterMap.mp ht
    exact pdfLineToTxn_pos pdate pfloat lm t hlm
  · intro pdate pfloat items t ht
    obtain ⟨it, _, hit⟩ := List.mem_filterMap.mp ht
    exact visionItemToTxn_pos pdate pfloat it t hit
  · intro pfloat dp cp amountMatches bodyDate desc subject body emailDate t h
    unfold extract_transaction at h
    split at h
    · cases h
    · split at h
      · cases h
      · rename_i a _
        split at h
        · cases h
        · rename_i hle
          have hpos : 0 < a := lt_of_not_le hle
          split at h
          · injection h with h'
            rw [← h']
            exact hpos
          · split at h
            · injection h with h'
              rw [← h']
              exact hpos
            · cases h

theorem C5_extracted_amounts_positive_witness :
    ((⟨"2024-03-01", "UPI/P2M/123/SWIGGY", 450, "debit", ""⟩ : PTxn)
        ∈ dataframe_to_transactions wpd wpf true true true true false [wRowDC] ∧
      0 < ((⟨"2024-03-01", "UPI/P2M/123/SWIGGY", 450, "debit", ""⟩ : PTxn)).amount) ∧
    ((⟨"2024-03-01", "UPI/P2M/123/SWIGGY", 450, "debit", ""⟩ : PTxn)
        ∈ parse_pdf_tables wpd wpf true false [wRowDC] ∧
      0 < ((⟨"2024-03-01", "UPI/P2M/123/SWIGGY", 450, "debit", ""⟩ : PTxn)).amount) ∧
    ((⟨"2024-03-01", "STORE PURCHASE", 450, "debit", ""⟩ : PTxn)
        ∈ parse_pdf_text wpd wpf [some wPdfLine] ∧
      0 < ((⟨"2024-03-01", "STORE PURCHASE", 450, "debit", ""⟩ : PTxn)).amount) ∧
    ((⟨"2024-03-01", "Shop", 450, "debit", ""⟩ : PTxn)
        ∈ parse_vision_response wpd wpf [wVItem] ∧
      0 < ((⟨"2024-03-01", "Shop", 450, "debit", ""⟩ : PTxn)).amount) ∧
    (extract_transaction wpf [] [] ["450"] (some ("2024-03-05")) "d" "s" wBody none
        = some ⟨"2024-03-05", "d", 450, "debit", takeStr 2000 wBody⟩ ∧
      0 < ((⟨"2024-03-05", "d", 450, "debit", takeStr 2000 wBody⟩ : PTxn)).amount) :=
  ⟨⟨by decide, C5_extracted_amounts_positive.1 wpd wpf true true true true false [wRowDC] _
      (by decide)⟩,
   ⟨by decide, C5_extracted_amounts_positive.2.1 wpd wpf true false [wRowDC] _ (by decide)⟩,
   ⟨by decide, C5_extracted_amounts_positive.2.2.1 wpd wpf [some wPdfLine] _ (by decide)⟩,
   ⟨by decide, C5_extracted_amounts_positive.2.2.2.1 wpd wpf [wVItem] _ (by decide)⟩,
   ⟨by decide, C5_extracted_amounts_positive.2.2.2.2 wpf [] [] ["450"] (some ("2024-03-05"))
      "d" "s" wBody none _ (by decide)⟩⟩

/-! ### `find_within_file_duplicates` lemmas -/

theorem firstIdx_append_left (k : String × ℤ × String × String) (l1 l2 : List Txn) (j : Nat)
    (h : firstIdx k l1 = some j) : firstIdx k (l1 ++ l2) = some j := by
  induction l1 generalizing j with
  | nil => cases h
  | cons t rest ih =>
    simp only [firstIdx, List.cons_append] at h ⊢
    by_cases ht : dupKey t = k
    · rw [if_pos ht] at h ⊢
      exact h
    · rw [if_neg ht] at h ⊢
      obtain ⟨j', hj', rfl⟩ := Option.map_eq_some'.mp h
      show Option.map (fun x => x + 1) (firstIdx k (rest ++ l2)) = some (j' + 1)
      rw [ih j' hj']
      rfl

theorem firstIdx_append_right (k : String × ℤ × String × String) (l1 l2 : List Txn)
    (h : firstIdx k l1 = none) :
    firstIdx k (l1 ++ l2) = (firstIdx k l2).map (fun n => n + l1.length) := by
  induction l1 with
  | nil =>
    simp only [List.nil_append, List.length_nil]
    cases firstIdx k l2 <;> simp
  | cons t rest ih =>
    simp only [firstIdx, List.cons_append] at h ⊢
    by_cases ht : dupKey t = k
    · rw [if_pos ht] at h
      cases h
    · rw [if_neg ht] at h ⊢
      have hrest : firstIdx k rest = none := by
        cases hr : firstIdx k rest
        · rfl
        · rw [hr] at h
          cases h
      show Option.map (fun x => x + 1) (firstIdx k (rest ++ l2))
          = Option.map (fun n => n + (t :: rest).length) (firstIdx k l2)
      rw [ih hrest]
      cases firstIdx k l2 with
      | none => rfl
      | some n =>
        simp only [Option.map_some', List.length_cons, Option.some.injEq]
        omega

theorem firstIdx_lt_length (k : String × ℤ × String × String) (l : List Txn) (j : Nat)
    (h : firstIdx k l = some j) : j < l.length := by
  induction l generalizing j with
  | nil => cases h
  | cons t rest ih =>
    simp only [firstIdx] at h
    by_cases ht : dupKey t = k
    · rw [if_pos ht] at h
      injection h with h'
      rw [← h']
      simp
    · rw [if_neg ht] at h
      obtain ⟨j', hj', rfl⟩ := Option.map_eq_some'.mp h
      have := ih j' hj'
      simp only [List.length_cons]
      omega

theorem firstIdx_spec (k : String × ℤ × String × String) (l : List Txn) (f : Nat)
    (h : firstIdx k l = some f) :
    ∃ (hf : f < l.length), dupKey (l.get ⟨f, hf⟩) = k := by
  induction l generalizing f with
  | nil => cases h
  | cons t rest ih =>
    simp only [firstIdx] at h
    by_cases ht : dupKey t = k
    · rw [if_pos ht] at h
      injection h with h'
      subst h'
      exact ⟨by simp, ht⟩
    · rw [if_neg ht] at h
      obtain ⟨f', hf', rfl⟩ := Option.map_eq_some'.mp h
      obtain ⟨hlt, hk⟩ := ih f' hf'
      have hlt2 : f' + 1 < (t :: rest).length := by
        simp only [List.length_cons]
        omega
      refine ⟨hlt2, ?_⟩
      show dupKey ((t :: rest).get ⟨f' + 1, hlt2⟩) = k
      simp only [List.get_eq_getElem, List.getElem_cons_succ]
      simpa [List.get_eq_getElem] using hk

theorem firstIdx_le_of_get (l : List Txn) (m : Nat) (hm : m < l.length) :
    ∃ f, firstIdx (dupKey (l.get ⟨m, hm⟩)) l = some f ∧ f ≤ m := by
  induction l generalizing m with
  | nil => exact absurd hm (by simp)
  | cons t rest ih =>
    cases m with
    | zero =>
      refine ⟨0, ?_, le_refl 0⟩
      simp [firstIdx]
    | succ m' =>
      have hm' : m' < rest.length := by
        simp only [List.length_cons] at hm
        omega
      have hkey : (t :: rest).get ⟨m' + 1, hm⟩ = rest.get ⟨m', hm'⟩ := by
        simp [List.get_eq_getElem, List.getElem_cons_succ]
      rw [hkey]
      by_cases ht : dupKey t = dupKey (rest.get ⟨m', hm'⟩)
      · exact ⟨0, by simp [firstIdx, ht], by omega⟩
      · obtain ⟨f, hf, hfle⟩ := ih m' hm'
        refine ⟨f + 1, ?_, by omega⟩
        simp only [firstIdx, if_neg ht, hf]
        rfl

theorem fwdAux_snd (suf : List Txn) :
    ∀ (i : Nat) (seen : List ((String × ℤ × String × String) × Nat)),
      (∀ p ∈ fwdAux suf i seen, i ≤ p.2) ∧
      (fwdAux suf i seen).Pairwise (fun p q => p.2 < q.2) := by
  induction suf with
  | nil =>
    intro i seen
    constructor
    · intro p hp
      cases hp
    · simp [fwdAux]
  | cons t rest ih =>
    intro i seen
    cases hfind : seenFind (dupKey t) seen with
    | some j =>
      simp only [fwdAux, hfind]
      obtain ⟨hge, hpw⟩ := ih (i + 1) seen
      constructor
      · intro p hp
        rcases List.mem_cons.mp hp with rfl | hp'
        · exact le_refl i
        · have := hge p hp'
          omega
      · rw [List.pairwise_cons]
        refine ⟨?_, hpw⟩
        intro q hq
        have := hge q hq
        show i < q.2
        omega
    | none =>
      simp only [fwdAux, hfind]
      obtain ⟨hge, hpw⟩ := ih (i + 1) ((dupKey t, i) :: seen)
      refine ⟨?_, hpw⟩
      intro p hp
      have := hge p hp
      omega

theorem fwdAux_mem (suf : List Txn) :
    ∀ (pre : List Txn) (seen : List ((String × ℤ × String × String) × Nat)),
      (∀ k, seenFind k seen = firstIdx k pre) →
      ∀ p : Nat × Nat, p ∈ fwdAux suf pre.length seen ↔
        (pre.length ≤ p.2 ∧ ∃ (h : p.2 < (pre ++ suf).length),
          firstIdx (dupKey ((pre ++ suf).get ⟨p.2, h⟩)) (pre ++ suf) = some p.1 ∧
          p.1 ≠ p.2) := by
  induction suf with
  | nil =>
    intro pre seen hseen p
    simp only [fwdAux, List.append_nil]
    constructor
    · intro h
      cases h
    · rintro ⟨hle, hlt, _, _⟩
      omega
  | cons t rest ih =>
    intro pre seen hseen p
    have hlenx : (pre ++ [t]).length = pre.length + 1 := by simp
    have hassoc : (pre ++ [t]) ++ rest = pre ++ t :: rest := by simp
    cases hfind : seenFind (dupKey t) seen with
    | some j =>
      have hpre : firstIdx (dupKey t) pre = some j := by
        rw [← hseen]
        exact hfind
      have hseen' : ∀ k, seenFind k seen = firstIdx k (pre ++ [t]) := by
        intro k
        rw [hseen k]
        cases h1 : firstIdx k pre with
        | some j' => rw [firstIdx_append_left k pre [t] j' h1]
        | none =>
          rw [firstIdx_append_right k pre [t] h1]
          by_cases hk : dupKey t = k
          · subst hk
            rw [h1] at hpre
            cases hpre
          · simp [firstIdx, hk]
      have ihx := ih (pre ++ [t]) seen hseen' p
      rw [hlenx, hassoc] at ihx
      simp only [fwdAux, hfind]
      rw [List.mem_cons, ihx]
      have hlt0 : pre.length < (pre ++ t :: rest).length := by simp
      have hget0 : (pre ++ t :: rest).get ⟨pre.length, hlt0⟩ = t := by
        simp [List.get_eq_getElem, List.getElem_append_right, le_refl]
      constructor
      · rintro (rfl | ⟨hge, hlt, hfi, hne⟩)
        · refine ⟨le_refl _, hlt0, ?_, ?_⟩
          · rw [hget0]
            exact firstIdx_append_left _ _ _ _ hpre
          · have := firstIdx_lt_length _ _ _ hpre
            show j ≠ pre.length
            omega
        · exact ⟨by omega, hlt, hfi, hne⟩
      · rintro ⟨hge, hlt, hfi, hne⟩
        by_cases hp2 : p.2 = pre.length
        · left
          have hgetp : (pre ++ t :: rest).get ⟨p.2, hlt⟩ = t := by
            have hfin : (⟨p.2, hlt⟩ : Fin (pre ++ t :: rest).length) = ⟨pre.length, hlt0⟩ :=
              Fin.ext hp2
            rw [hfin]
            exact hget0
          rw [hgetp, firstIdx_append_left _ _ _ _ hpre] at hfi
          injection hfi with h1
          have hp : p = (p.1, p.2) := rfl
          rw [hp, ← h1, hp2]
        · right
          exact ⟨by omega, hlt, hfi, hne⟩
    | none =>
      have hpre : firstIdx (dupKey t) pre = none := by
        rw [← hseen]
        exact hfind
      have hseen' : ∀ k, seenFind k ((dupKey t, pre.length) :: seen) = firstIdx k (pre ++ [t]) := by
        intro k
        simp only [seenFind]
        by_cases hk : dupKey t = k
        · rw [if_pos hk]
          subst hk
          rw [firstIdx_append_right _ _ _ hpre]
          simp [firstIdx]
        · rw [if_neg hk, hseen k]
          cases h1 : firstIdx k pre with
          | some j' => rw [firstIdx_append_left k pre [t] j' h1]
          | none =>
            rw [firstIdx_append_right k pre [t] h1]
            simp [firstIdx, hk]
      have ihx := ih (pre ++ [t]) _ hseen' p
      rw [hlenx, hassoc] at ihx
      simp only [fwdAux, hfind]
      rw [ihx]
      have hlt0 : pre.length < (pre ++ t :: rest).length := by simp
      have hget0 : (pre ++ t :: rest).get ⟨pre.length, hlt0⟩ = t := by
        simp [List.get_eq_getElem, List.getElem_append_right, le_refl]
      constructor
      · rintro ⟨hge, hlt, hfi, hne⟩
        exact ⟨by omega, hlt, hfi, hne⟩
      · rintro ⟨hge, hlt, hfi, hne⟩
        by_cases hp2 : p.2 = pre.length
        · exfalso
          have hgetp : (pre ++ t :: rest).get ⟨p.2, hlt⟩ = t := by
            have hfin : (⟨p.2, hlt⟩ : Fin (pre ++ t :: rest).length) = ⟨pre.length, hlt0⟩ :=
              Fin.ext hp2
            rw [hfin]
            exact hget0
          have hfull : firstIdx (dupKey t) (pre ++ t :: rest) = some pre.length := by
            rw [firstIdx_append_right _ _ _ hpre]
            simp [firstIdx]
          rw [hgetp, hfull] at hfi
          injection hfi with h1
          exact hne (by rw [← h1, hp2])
        · exact ⟨by omega, hlt, hfi, hne⟩

theorem find_within_mem (txns : List Txn) (p : Nat × Nat) :
    p ∈ find_within_file_duplicates txns ↔
      ∃ (h : p.2 < txns.length),
        firstIdx (dupKey (txns.get ⟨p.2, h⟩)) txns = some p.1 ∧ p.1 ≠ p.2 := by
  have h := fwdAux_mem txns [] [] (fun k => rfl) p
  simp only [List.nil_append, List.length_nil, Nat.zero_le, true_and] at h
  exact h

/-- C6: for any two positions `i < j` whose transactions agree on the
date / amount-to-2-decimals / type / description-prefix key,
`find_within_file_duplicates` reports exactly one pair with second
component `j`, namely `(f, j)` where `f` is the first occurrence of the
key (so `f ≤ i < j`), and never the reversed pair `(j, f)`. -/
theorem C6_within_file_dup_pairs (txns : List Txn) (i j : Nat) (hij : i < j)
    (hj : j < txns.length)
    (hkey : dupKey (txns.get ⟨i, lt_trans hij hj⟩) = dupKey (txns.get ⟨j, hj⟩)) :
    ∃ f, firstIdx (dupKey (txns.get ⟨j, hj⟩)) txns = some f ∧ f ≤ i ∧ f < j ∧
      (f, j) ∈ find_within_file_duplicates txns ∧
      (j, f) ∉ find_within_file_duplicates txns ∧
      (find_within_file_duplicates txns).filter (fun p => decide (p.2 = j)) = [(f, j)] := by
  obtain ⟨f, hf, hfle⟩ := firstIdx_le_of_get txns i (lt_trans hij hj)
  rw [hkey] at hf
  have hflt : f < j := lt_of_le_of_lt hfle hij
  have hmemf : (f, j) ∈ find_within_file_duplicates txns :=
    (find_within_mem txns (f, j)).mpr ⟨hj, hf, by omega⟩
  refine ⟨f, hf, hfle, hflt, hmemf, ?_, ?_⟩
  · intro hrev
    obtain ⟨hlt2, hfi2, hne2⟩ := (find_within_mem txns (j, f)).mp hrev
    obtain ⟨hflt3, hkf⟩ := firstIdx_spec _ txns f hf
    have hsame : txns.get ⟨f, hlt2⟩ = txns.get ⟨f, hflt3⟩ := rfl
    rw [hsame, hkf, hf] at hfi2
    injection hfi2 with h1
    exact hne2 h1.symm
  · have hall : ∀ q ∈ (find_within_file_duplicates txns).filter (fun p => decide (p.2 = j)),
        q = (f, j) := by
      intro q hq
      obtain ⟨hqm, hqj⟩ := List.mem_filter.mp hq
      have hqj' : q.2 = j := of_decide_eq_true hqj
      obtain ⟨hlt2, hfi2, hne2⟩ := (find_within_mem txns q).mp hqm
      have hfin : (⟨q.2, hlt2⟩ : Fin txns.length) = ⟨j, hj⟩ := Fin.ext hqj'
      rw [hfin, hf] at hfi2
      injection hfi2 with h1
      have hqp : q = (q.1, q.2) := rfl
      rw [hqp, ← h1, hqj']
    have hmf : (f, j) ∈ (find_within_file_duplicates txns).filter (fun p => decide (p.2 = j)) :=
      List.mem_filter.mpr ⟨hmemf, by simp⟩
    have hpw : ((find_within_file_duplicates txns).filter
        (fun p => decide (p.2 = j))).Pairwise (fun p q => p.2 < q.2) :=
      List.Pairwise.sublist (List.filter_sublist _) (fwdAux_snd txns 0 []).2
    cases hL : (find_within_file_duplicates txns).filter (fun p => decide (p.2 = j)) with
    | nil =>
      rw [hL] at hmf
      cases hmf
    | cons x xs =>
      have hx : x = (f, j) := hall x (by rw [hL]; exact List.mem_cons_self x xs)
      cases xs with
      | nil => rw [hx]
      | cons y ys =>
        exfalso
        have hy : y = (f, j) := hall y (by
          rw [hL]
          exact List.mem_cons_of_mem x (List.mem_cons_self y ys))
        rw [hL] at hpw
        have hxy := (List.pairwise_cons.mp hpw).1 y (List.mem_cons_self y ys)
        rw [hx, hy] at hxy
        exact lt_irrefl _ hxy

theorem C6_within_file_dup_pairs_witness :
    ((0 : Nat) < 1 ∧ 1 < wDupTxns.length ∧
      dupKey (wDupTxns.get ⟨0, by decide⟩) = dupKey (wDupTxns.get ⟨1, by decide⟩)) ∧
    (∃ f, firstIdx (dupKey (wDupTxns.get ⟨1, by decide⟩)) wDupTxns = some f ∧ f ≤ 0 ∧ f < 1 ∧
      (f, 1) ∈ find_within_file_duplicates wDupTxns ∧
      (1, f) ∉ find_within_file_duplicates wDupTxns ∧
      (find_within_file_duplicates wDupTxns).filter (fun p => decide (p.2 = 1)) = [(f, 1)]) :=
  ⟨⟨by decide, by decide, by decide⟩,
   C6_within_file_dup_pairs wDupTxns 0 1 (by decide) (by decide) (by decide)⟩
